import Mathlib

/-!
Shallow embedding of `src/2022/day19/src/main.rs`: a branch-and-bound search
for the maximal geode count of an Advent-of-Code 2022 day 19 blueprint.

Machine integers (`u8` robot counts, `u16` resources) are modelled as `Nat`.
Every subtraction in the source is guarded by a `>=` test on the pre-harvest
resources, so `Nat` truncated subtraction coincides with the source's exact
subtraction; within the problem sizes the source is written for
(horizon <= 32, costs <= 100) none of the additions can overflow `u16`.
The mutable field `optimal_geode_count` is threaded explicitly: each solver
function takes its current value and returns its final value.  A Rust panic
(`unwrap` on an empty slice) is modelled by `Option.none`.
-/

namespace Day19

/-- The search state of `solve_bfs` / `solve_recursive`: the robot fleet and
the accumulated resources (struct `RecursionState` in the source, fields in
declaration order — that order fixes the derived lexicographic `Ord`). -/
structure RecursionState where
  ore_robots : Nat
  clay_robots : Nat
  obsidian_robots : Nat
  geode_robots : Nat
  ore : Nat
  clay : Nat
  obsidian : Nat
  geode : Nat
deriving DecidableEq, Repr

/-- The parsed blueprint costs (struct `Blueprint` in the source; the `id`
field and the mutable `optimal_geode_count` field are not part of the cost
data and are modelled separately). -/
structure Blueprint where
  ore_robot_ore_cost : Nat
  clay_robot_ore_cost : Nat
  obsidian_robot_ore_cost : Nat
  obsidian_robot_clay_cost : Nat
  geode_robot_ore_cost : Nat
  geode_robot_obsidian_cost : Nat
deriving DecidableEq, Repr

/-- One production tick: every robot of the pre-transition fleet adds one unit
of its resource (`next_rs.ore += next_rs.ore_robots; ...` in the source). -/
def harvest (rs : RecursionState) : RecursionState :=
  { rs with
    ore := rs.ore + rs.ore_robots
    clay := rs.clay + rs.clay_robots
    obsidian := rs.obsidian + rs.obsidian_robots
    geode := rs.geode + rs.geode_robots }

/-- Branch (1) of the source: build an ore robot on top of the harvested
state (spend the cost, then increment the robot count). -/
def buildOre (bp : Blueprint) (rs : RecursionState) : RecursionState :=
  let next := harvest rs
  { next with
    ore := next.ore - bp.ore_robot_ore_cost
    ore_robots := next.ore_robots + 1 }

/-- Branch (2) of the source: build a clay robot. -/
def buildClay (bp : Blueprint) (rs : RecursionState) : RecursionState :=
  let next := harvest rs
  { next with
    ore := next.ore - bp.clay_robot_ore_cost
    clay_robots := next.clay_robots + 1 }

/-- Branch (3) of the source: build an obsidian robot. -/
def buildObsidian (bp : Blueprint) (rs : RecursionState) : RecursionState :=
  let next := harvest rs
  { next with
    ore := next.ore - bp.obsidian_robot_ore_cost
    clay := next.clay - bp.obsidian_robot_clay_cost
    obsidian_robots := next.obsidian_robots + 1 }

/-- Branch (4) of the source: build a geode robot. -/
def buildGeode (bp : Blueprint) (rs : RecursionState) : RecursionState :=
  let next := harvest rs
  { next with
    ore := next.ore - bp.geode_robot_ore_cost
    obsidian := next.obsidian - bp.geode_robot_obsidian_cost
    geode_robots := next.geode_robots + 1 }

/-- The five expansion branches shared by `solve_bfs` and `solve_recursive`,
in source order: one build child per robot kind whose cost is covered by the
pre-transition resources `rs`, and the unconditional idle child last. -/
def children (bp : Blueprint) (rs : RecursionState) : List RecursionState :=
  (if bp.ore_robot_ore_cost ≤ rs.ore then [buildOre bp rs] else []) ++
  (if bp.clay_robot_ore_cost ≤ rs.ore then [buildClay bp rs] else []) ++
  (if bp.obsidian_robot_ore_cost ≤ rs.ore ∧ bp.obsidian_robot_clay_cost ≤ rs.clay then
    [buildObsidian bp rs] else []) ++
  (if bp.geode_robot_ore_cost ≤ rs.ore ∧ bp.geode_robot_obsidian_cost ≤ rs.obsidian then
    [buildGeode bp rs] else []) ++
  [harvest rs]

/-- The starting state of `solve_bfs`: one ore robot, nothing else. -/
def initState : RecursionState :=
  { ore_robots := 1, clay_robots := 0, obsidian_robots := 0, geode_robots := 0
    ore := 0, clay := 0, obsidian := 0, geode := 0 }

/-- `Blueprint::solve_recursive`, with the mutable field
`self.optimal_geode_count` threaded as the argument `best` and returned.
At `t = 1` the state is scored as `geode + geode_robots` and `best` is updated
on strict improvement; at `t ≥ 2` the triangular-number upper bound cuts the
branch off when it cannot beat `best`, otherwise the five branches run in
source order, each threading `best` through.  The source never calls this
with `t = 0` (`solve_bfs` passes `ts ≥ 2` and recursion stops at `t = 1`);
that unreachable case is modelled as a no-op. -/
def solve_recursive (bp : Blueprint) : Nat → RecursionState → Nat → Nat
  | 0, _rs, best => best
  | 1, rs, best =>
    if rs.geode + rs.geode_robots > best then rs.geode + rs.geode_robots else best
  | t + 2, rs, best =>
    if rs.geode + rs.geode_robots * (t + 2) + (t + 2 - 1) * (t + 2) / 2 ≤ best then
      best
    else
      (children bp rs).foldl (fun b c => solve_recursive bp (t + 1) c b) best

/-- The strict lexicographic order on `RecursionState` in field-declaration
order — exactly the derived `Ord`/`PartialOrd` of the source struct. -/
def rsLt (a b : RecursionState) : Prop :=
  a.ore_robots < b.ore_robots ∨
   (a.ore_robots = b.ore_robots ∧ (a.clay_robots < b.clay_robots ∨
    (a.clay_robots = b.clay_robots ∧ (a.obsidian_robots < b.obsidian_robots ∨
     (a.obsidian_robots = b.obsidian_robots ∧ (a.geode_robots < b.geode_robots ∨
      (a.geode_robots = b.geode_robots ∧ (a.ore < b.ore ∨
       (a.ore = b.ore ∧ (a.clay < b.clay ∨
        (a.clay = b.clay ∧ (a.obsidian < b.obsidian ∨
         (a.obsidian = b.obsidian ∧ a.geode < b.geode)))))))))))))

/-- The reflexive closure of `rsLt`: the total lexicographic order used by
`source.sort_unstable()`. -/
def rsLe (a b : RecursionState) : Prop :=
  rsLt a b ∨ a = b

instance : DecidableRel rsLt := fun a b => by
  unfold rsLt; infer_instance

instance : DecidableRel rsLe := fun a b => by
  unfold rsLe; infer_instance

/-- The keep-condition of the adjacency pass in `prune_states`: `a` is copied
over exactly when it beats its successor `b` strictly in some field (the
source's eight-fold `||` of `>` comparisons, in source order). -/
def keepState (a b : RecursionState) : Prop :=
  a.geode > b.geode
    ∨ a.obsidian > b.obsidian
    ∨ a.clay > b.clay
    ∨ a.ore > b.ore
    ∨ a.geode_robots > b.geode_robots
    ∨ a.obsidian_robots > b.obsidian_robots
    ∨ a.clay_robots > b.clay_robots
    ∨ a.ore_robots > b.ore_robots

instance : DecidableRel keepState := fun a b => by
  unfold keepState; infer_instance

/-- The adjacency pass of `prune_states` over the already-sorted slice:
the zipped loop pushes each element that satisfies `keepState` against its
immediate successor, and the final `dest.push(*source.last().unwrap())`
always keeps the last element. -/
def adjPass : List RecursionState → List RecursionState
  | [] => []
  | [a] => [a]
  | a :: b :: rest =>
    if keepState a b then a :: adjPass (b :: rest) else adjPass (b :: rest)

/-- `prune_states`: sort the source lexicographically (`sort_unstable` — since
`rsLe` is an antisymmetric total order the sorted permutation is unique, so
`List.insertionSort` computes it), run the adjacency pass, and keep the last
element.  On an empty source `source.last().unwrap()` panics, modelled as
`none`. -/
def prune_states (source : List RecursionState) : Option (List RecursionState) :=
  match source with
  | [] => none
  | _ :: _ => some (adjPass (List.insertionSort rsLe source))

/-- The expansion loop of `solve_bfs`: push the children of every state of
`vec_a` into `vec_b`, in order. -/
def expandAll (bp : Blueprint) : List RecursionState → List RecursionState
  | [] => []
  | rs :: rest => children bp rs ++ expandAll bp rest

/-- Rust's `iter().max()`: `none` on an empty list (`unwrap` then panics). -/
def rustMax : List Nat → Option Nat
  | [] => none
  | x :: xs => some (xs.foldl max x)

/-- The `for ts in (2..=total_runtime).rev()` loop of `solve_bfs`, with the
loop counter `ts` as fuel.  At `ts ≤ 1` the loop is over without an early
exit and the source scores `vec_a` directly
(`vec_a.iter().map(|e| e.geode + e.geode_robots).max().unwrap()`,
overwriting `optimal_geode_count`).  At `ts ≥ 2` the source first checks the
switch-to-DFS condition (`vec_a.len() >= 2^20 || ts <= 3`) and either runs
`solve_recursive` on every state (early exit), or expands every state,
prunes the result and continues with `ts - 1`. -/
def bfsLoop (bp : Blueprint) : Nat → List RecursionState → Nat → Option Nat
  | 0, vecA, _best => rustMax (vecA.map fun e => e.geode + e.geode_robots)
  | 1, vecA, _best => rustMax (vecA.map fun e => e.geode + e.geode_robots)
  | ts + 2, vecA, best =>
    if 2 ^ 20 ≤ vecA.length ∨ ts + 2 ≤ 3 then
      some (vecA.foldl (fun b rs => solve_recursive bp (ts + 2) rs b) best)
    else
      (prune_states (expandAll bp vecA)).bind fun vecA2 =>
        bfsLoop bp (ts + 1) vecA2 best

/-- `Blueprint::solve_bfs`: seed the frontier with `initState` and run the
timeslot loop.  `best` is the value of `self.optimal_geode_count` on entry
(`0` for a freshly parsed blueprint — the method never resets it); the result
is its value when the method returns. -/
def solve_bfs (bp : Blueprint) (total_runtime : Nat) (best : Nat) : Option Nat :=
  bfsLoop bp total_runtime [initState] best

/-- Componentwise order on states: `a` is at most `b` in every robot-count
and every resource field.  This is the domination order of the spec; note
`¬ keepState a b` is exactly `domLe a b`. -/
def domLe (a b : RecursionState) : Prop :=
  a.ore_robots ≤ b.ore_robots ∧ a.clay_robots ≤ b.clay_robots ∧
  a.obsidian_robots ≤ b.obsidian_robots ∧ a.geode_robots ≤ b.geode_robots ∧
  a.ore ≤ b.ore ∧ a.clay ≤ b.clay ∧ a.obsidian ≤ b.obsidian ∧ a.geode ≤ b.geode

instance : DecidableRel domLe := fun a b => by
  unfold domLe; infer_instance

/-- Maximum of a list of naturals, `0` for the empty list. -/
def listMax (l : List Nat) : Nat := l.foldl max 0

/-- Modelled from the spec: the brute-force reference value — the maximal
geode count reachable from `rs` in exactly `t` steps when every step builds
at most one affordable robot (one recursion level per step, over exactly the
five legal branches). -/
def bestScore (bp : Blueprint) : Nat → RecursionState → Nat
  | 0, rs => rs.geode
  | t + 1, rs => listMax ((children bp rs).map (bestScore bp t))

/-! ### The lexicographic order is a total order -/

theorem rsLe_refl (a : RecursionState) : rsLe a a := Or.inr rfl

theorem rsLt_or_eq_or_gt (a b : RecursionState) : rsLt a b ∨ a = b ∨ rsLt b a := by
  cases a; cases b
  simp only [rsLt, RecursionState.mk.injEq]
  omega

theorem rsLe_total (a b : RecursionState) : rsLe a b ∨ rsLe b a := by
  rcases rsLt_or_eq_or_gt a b with h | h | h
  · exact Or.inl (Or.inl h)
  · exact Or.inl (Or.inr h)
  · exact Or.inr (Or.inl h)

theorem rsLt_trans {a b c : RecursionState} (h1 : rsLt a b) (h2 : rsLt b c) :
    rsLt a c := by
  cases a; cases b; cases c
  simp only [rsLt] at h1 h2 ⊢
  omega

theorem rsLt_asymm {a b : RecursionState} (h1 : rsLt a b) (h2 : rsLt b a) : False := by
  cases a; cases b
  simp only [rsLt] at h1 h2
  omega

theorem rsLe_trans {a b c : RecursionState} (h1 : rsLe a b) (h2 : rsLe b c) :
    rsLe a c := by
  rcases h1 with h1 | rfl
  · rcases h2 with h2 | rfl
    · exact Or.inl (rsLt_trans h1 h2)
    · exact Or.inl h1
  · exact h2

theorem rsLe_antisymm {a b : RecursionState} (h1 : rsLe a b) (h2 : rsLe b a) :
    a = b := by
  rcases h1 with h1 | rfl
  · rcases h2 with h2 | rfl
    · exact absurd h1 (fun h => rsLt_asymm h h2)
    · rfl
  · rfl

instance : IsTotal RecursionState rsLe := ⟨rsLe_total⟩

instance : IsTrans RecursionState rsLe := ⟨fun _ _ _ => rsLe_trans⟩

/-! ### The domination order and the keep-condition -/

theorem domLe_refl (a : RecursionState) : domLe a a := by
  unfold domLe; omega

theorem domLe_trans {a b c : RecursionState} (h1 : domLe a b) (h2 : domLe b c) :
    domLe a c := by
  unfold domLe at h1 h2 ⊢; omega

/-- The source's drop-condition is exactly componentwise domination: `a` is not
copied over precisely when every field of `a` is at most the corresponding
field of its successor. -/
theorem not_keepState_iff (a b : RecursionState) : ¬ keepState a b ↔ domLe a b := by
  unfold keepState domLe; omega

theorem not_keepState_self (a : RecursionState) : ¬ keepState a a := by
  unfold keepState; omega

/-! ### The transition generator -/

theorem mem_ite_nil {p : Prop} [Decidable p] {l : List RecursionState}
    {a : RecursionState} : (a ∈ if p then l else []) ↔ p ∧ a ∈ l := by
  split <;> simp_all

/-- Membership characterization of the five expansion branches: a child is
either one of the four guarded build children or the idle child. -/
theorem mem_children_iff (bp : Blueprint) (rs c : RecursionState) :
    c ∈ children bp rs ↔
      (bp.ore_robot_ore_cost ≤ rs.ore ∧ c = buildOre bp rs) ∨
      (bp.clay_robot_ore_cost ≤ rs.ore ∧ c = buildClay bp rs) ∨
      ((bp.obsidian_robot_ore_cost ≤ rs.ore ∧ bp.obsidian_robot_clay_cost ≤ rs.clay) ∧
        c = buildObsidian bp rs) ∨
      ((bp.geode_robot_ore_cost ≤ rs.ore ∧ bp.geode_robot_obsidian_cost ≤ rs.obsidian) ∧
        c = buildGeode bp rs) ∨
      c = harvest rs := by
  simp only [children, List.mem_append, mem_ite_nil, List.mem_singleton]
  tauto

theorem harvest_mem_children (bp : Blueprint) (rs : RecursionState) :
    harvest rs ∈ children bp rs := by
  rw [mem_children_iff]; tauto

theorem children_ne_nil (bp : Blueprint) (rs : RecursionState) :
    children bp rs ≠ [] :=
  List.ne_nil_of_mem (harvest_mem_children bp rs)

theorem children_length_le (bp : Blueprint) (rs : RecursionState) :
    (children bp rs).length ≤ 5 := by
  unfold children
  split_ifs <;> simp

theorem buildOre_ne_harvest (bp : Blueprint) (rs : RecursionState) :
    buildOre bp rs ≠ harvest rs := by
  intro h
  have h2 := congrArg RecursionState.ore_robots h
  simp only [buildOre, harvest] at h2
  omega

theorem buildClay_ne_harvest (bp : Blueprint) (rs : RecursionState) :
    buildClay bp rs ≠ harvest rs := by
  intro h
  have h2 := congrArg RecursionState.clay_robots h
  simp only [buildClay, harvest] at h2
  omega

theorem buildObsidian_ne_harvest (bp : Blueprint) (rs : RecursionState) :
    buildObsidian bp rs ≠ harvest rs := by
  intro h
  have h2 := congrArg RecursionState.obsidian_robots h
  simp only [buildObsidian, harvest] at h2
  omega

theorem buildGeode_ne_harvest (bp : Blueprint) (rs : RecursionState) :
    buildGeode bp rs ≠ harvest rs := by
  intro h
  have h2 := congrArg RecursionState.geode_robots h
  simp only [buildGeode, harvest] at h2
  omega

/-- The idle child appears exactly once among the children: the expansion
step produces exactly one no-build branch. -/
theorem count_harvest_children (bp : Blueprint) (rs : RecursionState) :
    List.count (harvest rs) (children bp rs) = 1 := by
  unfold children
  split_ifs <;>
    simp [List.count_append, List.count_singleton, List.count_cons, beq_iff_eq,
      buildOre_ne_harvest, buildClay_ne_harvest,
      buildObsidian_ne_harvest, buildGeode_ne_harvest]

/-- Field bookkeeping for every child: the geode stock grows by exactly the
pre-transition geode-robot count (the freshly built robot produces nothing in
its build step), the geode-robot count grows by at most one, and none of the
four robot counts decreases. -/
theorem children_fields (bp : Blueprint) (rs : RecursionState) :
    ∀ c ∈ children bp rs,
      c.geode = rs.geode + rs.geode_robots ∧
      c.geode_robots ≤ rs.geode_robots + 1 ∧
      rs.ore_robots ≤ c.ore_robots ∧ rs.clay_robots ≤ c.clay_robots ∧
      rs.obsidian_robots ≤ c.obsidian_robots ∧ rs.geode_robots ≤ c.geode_robots := by
  intro c hc
  rw [mem_children_iff] at hc
  rcases hc with ⟨_, rfl⟩ | ⟨_, rfl⟩ | ⟨_, rfl⟩ | ⟨_, rfl⟩ | rfl <;>
    simp [buildOre, buildClay, buildObsidian, buildGeode, harvest]

/-- Simulation: a componentwise-greater state can match every child move of a
componentwise-smaller state with a componentwise-greater child. -/
theorem children_sim (bp : Blueprint) {s a : RecursionState} (h : domLe s a) :
    ∀ c ∈ children bp s, ∃ d ∈ children bp a, domLe c d := by
  obtain ⟨h1, h2, h3, h4, h5, h6, h7, h8⟩ := h
  intro c hc
  rw [mem_children_iff] at hc
  rcases hc with ⟨hg, rfl⟩ | ⟨hg, rfl⟩ | ⟨hg, rfl⟩ | ⟨hg, rfl⟩ | rfl
  · refine ⟨buildOre bp a, ?_, ?_⟩
    · rw [mem_children_iff]; exact Or.inl ⟨le_trans hg h5, rfl⟩
    · simp only [domLe, buildOre, harvest]; omega
  · refine ⟨buildClay bp a, ?_, ?_⟩
    · rw [mem_children_iff]; exact Or.inr (Or.inl ⟨le_trans hg h5, rfl⟩)
    · simp only [domLe, buildClay, harvest]; omega
  · refine ⟨buildObsidian bp a, ?_, ?_⟩
    · rw [mem_children_iff]
      exact Or.inr (Or.inr (Or.inl ⟨⟨le_trans hg.1 h5, le_trans hg.2 h6⟩, rfl⟩))
    · simp only [domLe, buildObsidian, harvest]; omega
  · refine ⟨buildGeode bp a, ?_, ?_⟩
    · rw [mem_children_iff]
      exact Or.inr (Or.inr (Or.inr (Or.inl ⟨⟨le_trans hg.1 h5, le_trans hg.2 h7⟩, rfl⟩)))
    · simp only [domLe, buildGeode, harvest]; omega
  · refine ⟨harvest a, harvest_mem_children bp a, ?_⟩
    simp only [domLe, harvest]; omega

/-! ### listMax toolbox -/

theorem foldl_max_eq (l : List Nat) : ∀ a : Nat, l.foldl max a = max a (listMax l) := by
  unfold listMax
  induction l with
  | nil => intro a; simp
  | cons x xs ih =>
    intro a
    simp only [List.foldl_cons]
    rw [ih (max a x), ih (max 0 x)]
    omega

theorem listMax_cons (x : Nat) (l : List Nat) : listMax (x :: l) = max x (listMax l) := by
  show List.foldl max (max 0 x) l = max x (listMax l)
  rw [foldl_max_eq]
  omega

theorem listMax_append (l1 l2 : List Nat) :
    listMax (l1 ++ l2) = max (listMax l1) (listMax l2) := by
  induction l1 with
  | nil => simp [listMax]
  | cons x xs ih =>
    rw [List.cons_append, listMax_cons, listMax_cons, ih]
    omega

theorem le_listMax {x : Nat} {l : List Nat} (h : x ∈ l) : x ≤ listMax l := by
  induction l with
  | nil => cases h
  | cons y ys ih =>
    rw [listMax_cons]
    rcases List.mem_cons.mp h with rfl | h2
    · omega
    · have := ih h2; omega

theorem listMax_le {l : List Nat} {m : Nat} (h : ∀ x ∈ l, x ≤ m) : listMax l ≤ m := by
  induction l with
  | nil => simp [listMax]
  | cons y ys ih =>
    rw [listMax_cons]
    have h1 := h y (List.mem_cons_self y ys)
    have h2 := ih fun x hx => h x (List.mem_cons_of_mem y hx)
    omega

theorem listMax_all_eq {l : List Nat} {v : Nat} (hne : l ≠ [])
    (h : ∀ x ∈ l, x = v) : listMax l = v := by
  cases l with
  | nil => exact absurd rfl hne
  | cons y ys =>
    have h1 : y = v := h y (List.mem_cons_self y ys)
    have h2 : listMax ys ≤ v := listMax_le fun x hx => le_of_eq (h x (List.mem_cons_of_mem y hx))
    rw [listMax_cons]
    omega

theorem rustMax_eq {l : List Nat} (h : l ≠ []) : rustMax l = some (listMax l) := by
  cases l with
  | nil => exact absurd rfl h
  | cons x xs =>
    show some (xs.foldl max x) = some (listMax (x :: xs))
    rw [foldl_max_eq, listMax_cons]

/-! ### The brute-force value: last step, monotonicity, admissible bound -/

/-- With one step left, every branch scores the same: the geodes on hand plus
one final tick of the current geode robots. -/
theorem bestScore_one (bp : Blueprint) (rs : RecursionState) :
    bestScore bp 1 rs = rs.geode + rs.geode_robots := by
  show listMax ((children bp rs).map (bestScore bp 0)) = _
  apply listMax_all_eq
  · exact List.ne_nil_of_mem (List.mem_map_of_mem _ (harvest_mem_children bp rs))
  · intro x hx
    obtain ⟨c, hc, rfl⟩ := List.mem_map.mp hx
    exact (children_fields bp rs c hc).1

/-- A componentwise-greater state reaches at least as many geodes in the same
number of steps. -/
theorem bestScore_mono (bp : Blueprint) :
    ∀ (t : Nat) {s a : RecursionState}, domLe s a →
      bestScore bp t s ≤ bestScore bp t a := by
  intro t
  induction t with
  | zero =>
    intro s a h
    obtain ⟨-, -, -, -, -, -, -, h8⟩ := h
    exact h8
  | succ t ih =>
    intro s a h
    show listMax _ ≤ listMax _
    apply listMax_le
    intro x hx
    obtain ⟨c, hc, rfl⟩ := List.mem_map.mp hx
    obtain ⟨d, hd, hcd⟩ := children_sim bp h c hc
    calc bestScore bp t c ≤ bestScore bp t d := ih hcd
      _ ≤ _ := le_listMax (List.mem_map_of_mem _ hd)

theorem tri_step (t : Nat) : t + (t - 1) * t / 2 = t * (t + 1) / 2 := by
  cases t with
  | zero => rfl
  | succ s =>
    have h1 : (s + 1) * (s + 1 + 1) = s * (s + 1) + 2 * (s + 1) := by ring
    have h2 : (s * (s + 1) + 2 * (s + 1)) / 2 = s * (s + 1) / 2 + (s + 1) :=
      Nat.add_mul_div_left _ _ (by omega)
    have h3 : s + 1 - 1 = s := rfl
    rw [h3, h1, h2]
    omega

/-- Admissibility of the source's cutoff bound: the brute-force value from
any state with `t` steps left never exceeds
`geode + geode_robots * t + (t - 1) * t / 2`. -/
theorem bestScore_le_upper (bp : Blueprint) :
    ∀ (t : Nat) (rs : RecursionState),
      bestScore bp t rs ≤ rs.geode + rs.geode_robots * t + (t - 1) * t / 2 := by
  intro t
  induction t with
  | zero => intro rs; simp [bestScore]
  | succ t ih =>
    intro rs
    show listMax _ ≤ _
    apply listMax_le
    intro x hx
    obtain ⟨c, hc, rfl⟩ := List.mem_map.mp hx
    obtain ⟨hg, hgr, -, -, -, -⟩ := children_fields bp rs c hc
    have h1 := ih c
    have h2 : c.geode_robots * t ≤ (rs.geode_robots + 1) * t :=
      Nat.mul_le_mul_right t hgr
    have h3 : (rs.geode_robots + 1) * t = rs.geode_robots * t + t := by ring
    have h4 := tri_step t
    have h5 : rs.geode_robots * (t + 1) = rs.geode_robots * t + rs.geode_robots := by ring
    have h6 : t + 1 - 1 = t := rfl
    rw [h6]
    omega

/-! ### Correctness of the depth-first solver -/

theorem foldl_max_shape (g : RecursionState → Nat) (f : Nat → RecursionState → Nat)
    (hf : ∀ b c, f b c = max b (g c)) :
    ∀ (l : List RecursionState) (b : Nat), l.foldl f b = max b (listMax (l.map g)) := by
  intro l
  induction l with
  | nil => intro b; simp [listMax]
  | cons c cs ih =>
    intro b
    simp only [List.foldl_cons, List.map_cons]
    rw [hf, ih, listMax_cons]
    omega

/-- `solve_recursive` computes exactly the maximum of the entering best value
and the brute-force value of its root state: the cutoff and the sequential
best-threading lose nothing. -/
theorem solve_recursive_eq (bp : Blueprint) :
    ∀ (t : Nat), 1 ≤ t → ∀ (rs : RecursionState) (best : Nat),
      solve_recursive bp t rs best = max best (bestScore bp t rs) := by
  intro t
  induction t using Nat.strong_induction_on with
  | _ t ih =>
    match t with
    | 0 => intro h; exact absurd h (by omega)
    | 1 =>
      intro _ rs best
      show (if rs.geode + rs.geode_robots > best then rs.geode + rs.geode_robots else best) = _
      rw [bestScore_one]
      split <;> omega
    | t + 2 =>
      intro _ rs best
      show (if rs.geode + rs.geode_robots * (t + 2) + (t + 2 - 1) * (t + 2) / 2 ≤ best then best
        else (children bp rs).foldl (fun b c => solve_recursive bp (t + 1) c b) best) = _
      split
      · next h =>
        exact (Nat.max_eq_left (le_trans (bestScore_le_upper bp (t + 2) rs) h)).symm
      · next _ =>
        rw [foldl_max_shape (bestScore bp (t + 1))
          (fun b c => solve_recursive bp (t + 1) c b)
          (fun b c => ih (t + 1) (by omega) (by omega) c b)]
        rfl

/-! ### The adjacency pass and prune_states -/

theorem adjPass_subset : ∀ (l : List RecursionState), adjPass l ⊆ l
  | [] => by simp [adjPass]
  | [a] => by simp [adjPass]
  | a :: b :: rest => by
    show (if keepState a b then a :: adjPass (b :: rest) else adjPass (b :: rest)) ⊆ _
    split
    · intro x hx
      rcases List.mem_cons.mp hx with rfl | hx2
      · exact List.mem_cons_self _ _
      · exact List.mem_cons_of_mem _ (adjPass_subset (b :: rest) hx2)
    · intro x hx
      exact List.mem_cons_of_mem _ (adjPass_subset (b :: rest) hx)

/-- The final `dest.push(*source.last().unwrap())` puts the last element of
the sorted slice into the output unconditionally. -/
theorem adjPass_getLast_mem :
    ∀ (l : List RecursionState) (h : l ≠ []), l.getLast h ∈ adjPass l
  | [a], _ => by simp [adjPass]
  | a :: b :: rest, _ => by
    rw [List.getLast_cons (List.cons_ne_nil b rest)]
    show _ ∈ (if keepState a b then a :: adjPass (b :: rest) else adjPass (b :: rest))
    split
    · exact List.mem_cons_of_mem _ (adjPass_getLast_mem (b :: rest) (List.cons_ne_nil b rest))
    · exact adjPass_getLast_mem (b :: rest) (List.cons_ne_nil b rest)

theorem adjPass_ne_nil {l : List RecursionState} (h : l ≠ []) : adjPass l ≠ [] :=
  List.ne_nil_of_mem (adjPass_getLast_mem l h)

/-- Covering: every element of the pass's input is componentwise dominated by
some survivor — a dropped element is dominated by its successor, and the
domination chain ends at a kept element. -/
theorem adjPass_cover : ∀ (l : List RecursionState), ∀ x ∈ l, ∃ y ∈ adjPass l, domLe x y
  | [], x, hx => absurd hx (List.not_mem_nil x)
  | [a], x, hx => by
    rw [List.mem_singleton] at hx
    subst hx
    exact ⟨x, by simp [adjPass], domLe_refl x⟩
  | a :: b :: rest, x, hx => by
    show ∃ y ∈ (if keepState a b then a :: adjPass (b :: rest) else adjPass (b :: rest)),
      domLe x y
    rcases List.mem_cons.mp hx with rfl | hx2
    · split
      · exact ⟨x, List.mem_cons_self _ _, domLe_refl x⟩
      · next hk =>
        have hd : domLe x b := (not_keepState_iff x b).mp hk
        obtain ⟨y, hy, hby⟩ := adjPass_cover (b :: rest) b (List.mem_cons_self b rest)
        exact ⟨y, hy, domLe_trans hd hby⟩
    · obtain ⟨y, hy, hxy⟩ := adjPass_cover (b :: rest) x hx2
      split
      · exact ⟨y, List.mem_cons_of_mem _ hy, hxy⟩
      · exact ⟨y, hy, hxy⟩

theorem sorted_le_getLast :
    ∀ (l : List RecursionState) (h : l ≠ []), List.Sorted rsLe l →
      ∀ x ∈ l, rsLe x (l.getLast h)
  | [a], _, _, x, hx => by
    rw [List.mem_singleton] at hx
    subst hx
    exact rsLe_refl x
  | a :: b :: rest, _, hs, x, hx => by
    rw [List.getLast_cons (List.cons_ne_nil b rest)]
    rcases List.mem_cons.mp hx with rfl | hx2
    · exact List.rel_of_sorted_cons hs _ (List.getLast_mem _)
    · exact sorted_le_getLast (b :: rest) (List.cons_ne_nil b rest) hs.of_cons x hx2

theorem prune_states_eq_some {source : List RecursionState} (h : source ≠ []) :
    prune_states source = some (adjPass (List.insertionSort rsLe source)) := by
  cases source with
  | nil => exact absurd rfl h
  | cons a rest => rfl

theorem insertionSort_ne_nil {source : List RecursionState} (h : source ≠ []) :
    List.insertionSort rsLe source ≠ [] := by
  intro h2
  apply h
  have hp := List.perm_insertionSort rsLe source
  rw [h2] at hp
  exact (List.Perm.eq_nil hp.symm)

theorem prune_out {source out : List RecursionState}
    (h : prune_states source = some out) :
    source ≠ [] ∧ out = adjPass (List.insertionSort rsLe source) := by
  cases source with
  | nil => simp [prune_states] at h
  | cons a rest =>
    refine ⟨List.cons_ne_nil a rest, ?_⟩
    rw [prune_states_eq_some (List.cons_ne_nil a rest)] at h
    exact (Option.some.inj h).symm

theorem prune_subset {source out : List RecursionState}
    (h : prune_states source = some out) : ∀ y ∈ out, y ∈ source := by
  obtain ⟨hne, rfl⟩ := prune_out h
  intro y hy
  exact ((List.perm_insertionSort rsLe source).mem_iff).mp
    (adjPass_subset _ hy)

theorem prune_cover {source out : List RecursionState}
    (h : prune_states source = some out) :
    ∀ x ∈ source, ∃ y ∈ out, domLe x y := by
  obtain ⟨hne, rfl⟩ := prune_out h
  intro x hx
  exact adjPass_cover _ x
    (((List.perm_insertionSort rsLe source).mem_iff).mpr hx)

theorem prune_ne_nil {source out : List RecursionState}
    (h : prune_states source = some out) : out ≠ [] := by
  obtain ⟨hne, rfl⟩ := prune_out h
  exact adjPass_ne_nil (insertionSort_ne_nil hne)

/-- Pruning preserves the maximum of any function monotone in the
componentwise order. -/
theorem prune_listMax {source out : List RecursionState}
    (h : prune_states source = some out) (f : RecursionState → Nat)
    (hf : ∀ {s a : RecursionState}, domLe s a → f s ≤ f a) :
    listMax (out.map f) = listMax (source.map f) := by
  apply Nat.le_antisymm
  · apply listMax_le
    intro x hx
    obtain ⟨y, hy, rfl⟩ := List.mem_map.mp hx
    exact le_listMax (List.mem_map_of_mem f (prune_subset h y hy))
  · apply listMax_le
    intro x hx
    obtain ⟨y, hy, rfl⟩ := List.mem_map.mp hx
    obtain ⟨z, hz, hyz⟩ := prune_cover h y hy
    exact le_trans (hf hyz) (le_listMax (List.mem_map_of_mem f hz))

/-- The output of a successful prune contains a lexicographically greatest
element of the input. -/
theorem prune_max {source out : List RecursionState}
    (h : prune_states source = some out) :
    ∃ m ∈ out, m ∈ source ∧ ∀ x ∈ source, rsLe x m := by
  obtain ⟨hne, rfl⟩ := prune_out h
  have hsne := insertionSort_ne_nil hne
  refine ⟨(List.insertionSort rsLe source).getLast hsne,
    adjPass_getLast_mem _ hsne, ?_, ?_⟩
  · exact ((List.perm_insertionSort rsLe source).mem_iff).mp (List.getLast_mem hsne)
  · intro x hx
    exact sorted_le_getLast _ hsne (List.sorted_insertionSort rsLe source) x
      (((List.perm_insertionSort rsLe source).mem_iff).mpr hx)

/-! ### Correctness of the BFS driver -/

theorem expandAll_ne_nil (bp : Blueprint) :
    ∀ {l : List RecursionState}, l ≠ [] → expandAll bp l ≠ [] := by
  intro l h
  cases l with
  | nil => exact absurd rfl h
  | cons rs rest =>
    show children bp rs ++ expandAll bp rest ≠ []
    simp [children_ne_nil bp rs]

theorem expandAll_listMax (bp : Blueprint) (f : RecursionState → Nat) :
    ∀ (l : List RecursionState),
      listMax ((expandAll bp l).map f) =
      listMax (l.map fun rs => listMax ((children bp rs).map f)) := by
  intro l
  induction l with
  | nil => rfl
  | cons rs rest ih =>
    show listMax ((children bp rs ++ expandAll bp rest).map f) = _
    rw [List.map_append, listMax_append, ih, List.map_cons, listMax_cons]

/-- Expanding a whole generation and taking the brute-force maximum one step
shorter is the same as the brute-force maximum of the generation itself. -/
theorem expandAll_bestScore (bp : Blueprint) (t : Nat) (l : List RecursionState) :
    listMax ((expandAll bp l).map (bestScore bp t)) =
    listMax (l.map (bestScore bp (t + 1))) := by
  rw [expandAll_listMax bp (bestScore bp t) l]
  rfl

/-- The timeslot loop of `solve_bfs` computes the maximum of the entering
best value and the brute-force value of the current frontier, whatever mix of
level-synchronous rounds and depth-first exits it takes. -/
theorem bfsLoop_eq (bp : Blueprint) :
    ∀ (ts : Nat), 2 ≤ ts → ∀ (vecA : List RecursionState) (best : Nat), vecA ≠ [] →
      bfsLoop bp ts vecA best =
        some (max best (listMax (vecA.map (bestScore bp ts)))) := by
  intro ts
  induction ts using Nat.strong_induction_on with
  | _ ts ih =>
    match ts with
    | 0 => intro h; exact absurd h (by omega)
    | 1 => intro h; exact absurd h (by omega)
    | t + 2 =>
      intro _ vecA best hne
      show (if 2 ^ 20 ≤ vecA.length ∨ t + 2 ≤ 3 then
          some (vecA.foldl (fun b rs => solve_recursive bp (t + 2) rs b) best)
        else (prune_states (expandAll bp vecA)).bind fun vecA2 =>
          bfsLoop bp (t + 1) vecA2 best) = _
      split
      · congr 1
        exact foldl_max_shape (bestScore bp (t + 2))
          (fun b rs => solve_recursive bp (t + 2) rs b)
          (fun b rs => solve_recursive_eq bp (t + 2) (by omega) rs b) vecA best
      · next h =>
        have hexp : expandAll bp vecA ≠ [] := expandAll_ne_nil bp hne
        have hout := prune_states_eq_some hexp
        rw [hout]
        show bfsLoop bp (t + 1) _ best = _
        rw [ih (t + 1) (by omega) (by omega) _ best (prune_ne_nil hout)]
        rw [prune_listMax hout (bestScore bp (t + 1))
          (fun h2 => bestScore_mono bp (t + 1) h2)]
        rw [expandAll_bestScore bp (t + 1) vecA]

/-- `solve_bfs` with a runtime of at least two timeslots returns the maximum
of the entering `optimal_geode_count` and the brute-force optimum. -/
theorem solve_bfs_eq (bp : Blueprint) {T : Nat} (h : 2 ≤ T) (best : Nat) :
    solve_bfs bp T best = some (max best (bestScore bp T initState)) := by
  unfold solve_bfs
  rw [bfsLoop_eq bp T h [initState] best (List.cons_ne_nil _ _)]
  congr 2
  show listMax [bestScore bp T initState] = _
  rw [listMax_cons]
  show max _ 0 = _
  omega

theorem solve_bfs_zero (bp : Blueprint) (best : Nat) : solve_bfs bp 0 best = some 0 := rfl

theorem solve_bfs_one (bp : Blueprint) (best : Nat) : solve_bfs bp 1 best = some 0 := rfl

/-! ### Concrete inputs for witnesses and counterexamples -/

/-- A two-producer blueprint in the style of end-to-end scenario B: the geode
robot costs 2 ore (and no obsidian), every other robot is unaffordable. -/
def bpB : Blueprint :=
  { ore_robot_ore_cost := 1000, clay_robot_ore_cost := 1000,
    obsidian_robot_ore_cost := 1000, obsidian_robot_clay_cost := 1000,
    geode_robot_ore_cost := 2, geode_robot_obsidian_cost := 0 }

/-- `exS1` is componentwise dominated by `exS3`, but in sorted order its
neighbour is `exS2`, which does not dominate it — so the adjacency pass keeps
it. -/
def exS1 : RecursionState := ⟨1, 0, 0, 0, 5, 0, 0, 0⟩

def exS2 : RecursionState := ⟨1, 1, 0, 0, 0, 0, 0, 0⟩

def exS3 : RecursionState := ⟨1, 1, 0, 0, 5, 0, 0, 0⟩

/-! ### The claims -/

/-- C1: for every blueprint and positive horizon `T`, `solve_bfs` run on a
freshly parsed blueprint (`optimal_geode_count = 0`) from one ore robot and
zero resources sets `optimal_geode_count` to the brute-force maximum geode
count over all `T`-step action sequences building at most one robot per
step. -/
theorem C1_solve_bfs_equals_brute_force (bp : Blueprint) (T : Nat) (h : 1 ≤ T) :
    solve_bfs bp T 0 = some (bestScore bp T initState) := by
  match T with
  | 1 =>
    rw [solve_bfs_one, bestScore_one]
    rfl
  | T + 2 =>
    rw [solve_bfs_eq bp (by omega) 0]
    congr 1
    omega

theorem C1_witness :
    1 ≤ 6 ∧ solve_bfs bpB 6 0 = some (bestScore bpB 6 initState) :=
  ⟨by decide, C1_solve_bfs_equals_brute_force bpB 6 (by decide)⟩

/-- C2: pruning is sound — every state fed into a successful `prune_states`
is componentwise at most some surviving state, and hence pruning never
changes the maximal brute-force value of the generation, at every remaining
time. -/
theorem C2_prune_states_sound (bp : Blueprint) (source out : List RecursionState)
    (h : prune_states source = some out) :
    (∀ a ∈ source, ∃ b ∈ out, domLe a b) ∧
    ∀ t, listMax (out.map (bestScore bp t)) = listMax (source.map (bestScore bp t)) :=
  ⟨prune_cover h, fun t =>
    prune_listMax h (bestScore bp t) fun h2 => bestScore_mono bp t h2⟩

theorem C2_witness :
    (∀ a ∈ [exS1, exS2, exS3], ∃ b ∈ [exS1, exS3], domLe a b) ∧
    ∀ t, listMax ([exS1, exS3].map (bestScore bpB t)) =
      listMax ([exS1, exS2, exS3].map (bestScore bpB t)) :=
  C2_prune_states_sound bpB [exS1, exS2, exS3] [exS1, exS3] (by decide)

/-- C3: the bound `geode + geode_robots * t + (t - 1) * t / 2` is admissible
— it never underestimates the brute-force value of any state with `t ≥ 1`
steps left — and consequently, whenever the cutoff fires
(`upper_bound ≤ best`), the abandoned branch could not have beaten `best`,
and `solve_recursive` correctly returns `best` unchanged. -/
theorem C3_upper_bound_admissible (bp : Blueprint) (rs : RecursionState)
    (t : Nat) (h : 1 ≤ t) :
    bestScore bp t rs ≤ rs.geode + rs.geode_robots * t + (t - 1) * t / 2 ∧
    ∀ best, rs.geode + rs.geode_robots * t + (t - 1) * t / 2 ≤ best →
      solve_recursive bp t rs best = best ∧ bestScore bp t rs ≤ best := by
  have h1 := bestScore_le_upper bp t rs
  refine ⟨h1, fun best hcut => ⟨?_, le_trans h1 hcut⟩⟩
  rw [solve_recursive_eq bp t h rs best]
  exact Nat.max_eq_left (le_trans h1 hcut)

theorem C3_witness :
    bestScore bpB 2 initState ≤
      initState.geode + initState.geode_robots * 2 + (2 - 1) * 2 / 2 ∧
    ∀ best, initState.geode + initState.geode_robots * 2 + (2 - 1) * 2 / 2 ≤ best →
      solve_recursive bpB 2 initState best = best ∧ bestScore bpB 2 initState ≤ best :=
  C3_upper_bound_admissible bpB initState 2 (by decide)

/-- C4: one expansion step produces at most five children; exactly one of
them is the idle child; a child is either a build child for a robot kind
whose full cost is covered by the pre-transition resources (spend the cost on
the harvested state, i.e. production is computed from the pre-transition
robot counts, then increment that robot count) or the idle child; robot
counts never decrease; and every guarded subtraction is exact — the spent
cost is bounded by the harvested stock, so no underflow occurs. -/
theorem C4_expansion_step (bp : Blueprint) (rs : RecursionState) :
    (children bp rs).length ≤ 5 ∧
    List.count (harvest rs) (children bp rs) = 1 ∧
    (∀ c, c ∈ children bp rs ↔
      (bp.ore_robot_ore_cost ≤ rs.ore ∧ c = buildOre bp rs) ∨
      (bp.clay_robot_ore_cost ≤ rs.ore ∧ c = buildClay bp rs) ∨
      ((bp.obsidian_robot_ore_cost ≤ rs.ore ∧ bp.obsidian_robot_clay_cost ≤ rs.clay) ∧
        c = buildObsidian bp rs) ∨
      ((bp.geode_robot_ore_cost ≤ rs.ore ∧ bp.geode_robot_obsidian_cost ≤ rs.obsidian) ∧
        c = buildGeode bp rs) ∨
      c = harvest rs) ∧
    (∀ c ∈ children bp rs,
      rs.ore_robots ≤ c.ore_robots ∧ rs.clay_robots ≤ c.clay_robots ∧
      rs.obsidian_robots ≤ c.obsidian_robots ∧ rs.geode_robots ≤ c.geode_robots) ∧
    (bp.ore_robot_ore_cost ≤ rs.ore →
      (buildOre bp rs).ore + bp.ore_robot_ore_cost = (harvest rs).ore) ∧
    (bp.clay_robot_ore_cost ≤ rs.ore →
      (buildClay bp rs).ore + bp.clay_robot_ore_cost = (harvest rs).ore) ∧
    (bp.obsidian_robot_ore_cost ≤ rs.ore ∧ bp.obsidian_robot_clay_cost ≤ rs.clay →
      (buildObsidian bp rs).ore + bp.obsidian_robot_ore_cost = (harvest rs).ore ∧
      (buildObsidian bp rs).clay + bp.obsidian_robot_clay_cost = (harvest rs).clay) ∧
    (bp.geode_robot_ore_cost ≤ rs.ore ∧ bp.geode_robot_obsidian_cost ≤ rs.obsidian →
      (buildGeode bp rs).ore + bp.geode_robot_ore_cost = (harvest rs).ore ∧
      (buildGeode bp rs).obsidian + bp.geode_robot_obsidian_cost = (harvest rs).obsidian) := by
  refine ⟨children_length_le bp rs, count_harvest_children bp rs,
    fun c => mem_children_iff bp rs c, ?_, ?_, ?_, ?_, ?_⟩
  · intro c hc
    have h2 := children_fields bp rs c hc
    exact ⟨h2.2.2.1, h2.2.2.2.1, h2.2.2.2.2.1, h2.2.2.2.2.2⟩
  · intro h; simp [buildOre, harvest]; omega
  · intro h; simp [buildClay, harvest]; omega
  · intro h; simp [buildObsidian, harvest]; omega
  · intro h; simp [buildGeode, harvest]; omega

/-- C5: `prune_states` sorts lexicographically (by the derived field-order
`Ord`), drops an element exactly when it is componentwise at most its
immediate successor in the sorted order (in particular an exact duplicate of
its successor is dropped — duplicates are deduplicated to one survivor), and
always keeps the last, lexicographically greatest element.  It removes only
locally dominated neighbours: in the concrete run below the surviving `exS1`
is pairwise dominated by the surviving `exS3`. -/
theorem C5_prune_states_adjacency_pass :
    (∀ source : List RecursionState, source ≠ [] →
      prune_states source = some (adjPass (List.insertionSort rsLe source)) ∧
      List.Sorted rsLe (List.insertionSort rsLe source) ∧
      List.Perm (List.insertionSort rsLe source) source) ∧
    (∀ a b : RecursionState, keepState a b ↔ ¬ domLe a b) ∧
    (∀ a : RecursionState, ¬ keepState a a) ∧
    (∀ (l : List RecursionState) (h : l ≠ []), l.getLast h ∈ adjPass l) ∧
    (prune_states [exS1, exS2, exS3] = some [exS1, exS3] ∧
      domLe exS1 exS3 ∧ exS1 ≠ exS3) := by
  refine ⟨fun source h => ⟨prune_states_eq_some h,
      List.sorted_insertionSort rsLe source, List.perm_insertionSort rsLe source⟩,
    fun a b => ?_, not_keepState_self, adjPass_getLast_mem, by decide⟩
  unfold keepState domLe
  omega

/-- C6 counterexample: on a degenerate horizon the engine does not fail fast
and does return a result — `solve_bfs` with horizon 0 (and 1) terminates
normally and overwrites `optimal_geode_count` (here previously 17) with the
initial state's score 0; no configuration error exists in the code. -/
theorem C6_counterexample :
    solve_bfs bpB 0 17 = some 0 ∧ solve_bfs bpB 1 17 = some 0 :=
  ⟨rfl, rfl⟩

/-- C6 (amended): there is no validation and no configuration error: for a
non-positive (or degenerate, ≤ 1) horizon `solve_bfs` terminates without
error — the model is a total function, so it never loops — and returns
normally, setting `optimal_geode_count` to the initial state's score 0
whatever its previous value. -/
theorem C6_no_fail_fast (bp : Blueprint) (best : Nat) :
    solve_bfs bp 0 best = some 0 ∧ solve_bfs bp 1 best = some 0 :=
  ⟨solve_bfs_zero bp best, solve_bfs_one bp best⟩

/-- C7 counterexample: `optimal_geode_count` is not reset by `solve_bfs`:
after a first solve at horizon 6 stores 4, a second call at horizon 2 on the
same instance returns the stale 4, whereas a fresh instance yields 0 — the
subsequent call does not start fresh. -/
theorem C7_counterexample :
    solve_bfs bpB 6 0 = some 4 ∧ solve_bfs bpB 2 4 = some 4 ∧
    solve_bfs bpB 2 0 = some 0 :=
  ⟨by decide, by decide, by decide⟩

/-- C7 (amended): during one invocation the best value is monotonically
non-decreasing — `solve_recursive` only ever replaces it by strictly larger
values, and a `solve_bfs` run with horizon ≥ 2 returns a value that is at
least the entering one — but the field is not reset per instance: a
subsequent `solve_bfs` call starts from the previous result instead of
starting fresh (and a call with horizon ≤ 1 overwrites it with 0). -/
theorem C7_monotone_during_solve (bp : Blueprint) (t T r : Nat)
    (rs : RecursionState) (best : Nat) (hT : 2 ≤ T)
    (hr : solve_bfs bp T best = some r) :
    best ≤ solve_recursive bp t rs best ∧ best ≤ r := by
  constructor
  · match t with
    | 0 => exact le_refl best
    | t + 1 =>
      rw [solve_recursive_eq bp (t + 1) (by omega) rs best]
      exact Nat.le_max_left _ _
  · rw [solve_bfs_eq bp hT best] at hr
    have h2 := Option.some.inj hr
    omega

theorem C7_witness :
    5 ≤ solve_recursive bpB 3 initState 5 ∧ 5 ≤ 5 :=
  C7_monotone_during_solve bpB 3 6 5 initState 5 (by decide) (by decide)

/-- C8: `solve` is idempotent — a second `solve_bfs` call with the same
horizon on the same instance (whose `optimal_geode_count` now holds the first
call's result) returns the same scalar. -/
theorem C8_solve_idempotent (bp : Blueprint) (T r1 : Nat)
    (h : solve_bfs bp T 0 = some r1) :
    solve_bfs bp T r1 = some r1 := by
  match T with
  | 0 =>
    rw [solve_bfs_zero] at h
    obtain rfl := Option.some.inj h
    exact solve_bfs_zero bp 0
  | 1 =>
    rw [solve_bfs_one] at h
    obtain rfl := Option.some.inj h
    exact solve_bfs_one bp 0
  | T + 2 =>
    rw [solve_bfs_eq bp (by omega) 0] at h
    have h1 := Option.some.inj h
    rw [solve_bfs_eq bp (by omega) r1]
    have h2 : max r1 (bestScore bp (T + 2) initState) = r1 := by omega
    rw [h2]

theorem C8_witness : solve_bfs bpB 6 4 = some 4 :=
  C8_solve_idempotent bpB 6 4 (by decide)

/-- C9: on the final remaining time step there is no expansion: the
depth-first solver scores a state directly as `geode + geode_robots`, the
BFS post-loop scores every surviving state the same way, and with horizon 1
`solve_bfs` yields exactly the scored resource already on hand in the
initial state. -/
theorem C9_final_step_scoring (bp : Blueprint) (rs : RecursionState)
    (best b0 : Nat) :
    solve_recursive bp 1 rs best = max best (rs.geode + rs.geode_robots) ∧
    bfsLoop bp 1 [rs] b0 = some (rs.geode + rs.geode_robots) ∧
    solve_bfs bp 1 b0 = some initState.geode := by
  refine ⟨?_, rfl, solve_bfs_one bp b0⟩
  show (if rs.geode + rs.geode_robots > best then rs.geode + rs.geode_robots else best) = _
  split <;> omega

/-- C10: `prune_states` on an empty generation panics (`last().unwrap()` on
an empty slice, modelled as `none`); on every non-empty generation it
returns a non-empty output containing a lexicographically greatest input
element. -/
theorem C10_prune_states_empty_and_last :
    prune_states [] = none ∧
    ∀ source : List RecursionState, source ≠ [] →
      ∃ out, prune_states source = some out ∧ out ≠ [] ∧
        ∃ m ∈ out, m ∈ source ∧ ∀ x ∈ source, rsLe x m := by
  refine ⟨rfl, fun source h => ?_⟩
  have hs := prune_states_eq_some h
  exact ⟨_, hs, prune_ne_nil hs, prune_max hs⟩

end Day19
